import Mathlib

/-!
Verification of the intelligent document chunking engine (`src/main.py`).

Strings are modelled as `List Char`.  The tokenizer (`tiktoken`, an external
capability per the spec) and the content hash (`hashlib.md5`) are opaque
parameters `tok : Str → Nat` and `md5hex : Str → Str`.  All regular-expression
behaviour of the Python code is embedded as explicit character scanners that
mirror CPython `re` semantics (leftmost scanning, ordered alternation, greedy
and non-greedy repetition as they resolve on these concrete patterns).
Whitespace is the ASCII whitespace set used by both `str.strip` and `re`'s
`\s` on ASCII text.
-/

namespace Chunking

abbrev Str := List Char

def litS (s : String) : Str := s.data

/-- ASCII whitespace, as stripped by Python `str.strip()` and matched by `\s`. -/
def isPyWs (c : Char) : Bool :=
  c == ' ' || c == '\t' || c == '\n' || c == '\r' || c == '\x0b' || c == '\x0c'

/-- Python `str.strip()`. -/
def pyStrip (s : Str) : Str :=
  ((s.dropWhile isPyWs).reverse.dropWhile isPyWs).reverse

def hasNonWs (s : Str) : Bool := s.any (fun c => !isPyWs c)

def isHashC (c : Char) : Bool := c == '#'

def notNl (c : Char) : Bool := !(c == '\n')

def isUpperAZ (c : Char) : Bool := 'A' ≤ c && c ≤ 'Z'

def isCapsRunC (c : Char) : Bool := isUpperAZ c || isPyWs c

/-- Python `str.split(sep)` for a single-character separator. -/
def splitCh (sep : Char) : Str → List Str
  | [] => [[]]
  | c :: r =>
    if c == sep then [] :: splitCh sep r
    else
      match splitCh sep r with
      | [] => [[c]]
      | p :: ps => (c :: p) :: ps

/-! ## Semantic chunker: `_split_by_sections`

The pattern is `(?m)^(#{1,6}\s+.*|^\d+\.\s+.*|^[A-Z][A-Z\s]+:)`, used with
`re.split` (one capture group, so delimiters are kept interleaved with the
surrounding text).  Each alternative is matched at a line start. -/

/-- Alternative `#{1,6}\s+.*`: one to six hashes (a run of 7+ hashes never
matches), at least one whitespace character (which may cross newlines), then
the rest of the current line. -/
def matchHash (s : Str) : Option (Str × Str) :=
  let hs := s.takeWhile isHashC
  let r1 := s.dropWhile isHashC
  if hs.length == 0 || decide (6 < hs.length) then none
  else
    let ws := r1.takeWhile isPyWs
    let r2 := r1.dropWhile isPyWs
    if ws.isEmpty then none
    else some (hs ++ ws ++ r2.takeWhile notNl, r2.dropWhile notNl)

/-- Alternative `\d+\.\s+.*`. -/
def matchNum (s : Str) : Option (Str × Str) :=
  let ds := s.takeWhile Char.isDigit
  let r1 := s.dropWhile Char.isDigit
  if ds.isEmpty then none
  else
    match r1 with
    | '.' :: r2 =>
      let ws := r2.takeWhile isPyWs
      let r3 := r2.dropWhile isPyWs
      if ws.isEmpty then none
      else some (ds ++ '.' :: ws ++ r3.takeWhile notNl, r3.dropWhile notNl)
    | _ => none

/-- Alternative `[A-Z][A-Z\s]+:`: the run after the first capital is maximal
(it may cross newlines) and must be immediately followed by a colon. -/
def matchCaps (s : Str) : Option (Str × Str) :=
  match s with
  | [] => none
  | c :: r1 =>
    if isUpperAZ c then
      let run := r1.takeWhile isCapsRunC
      let r2 := r1.dropWhile isCapsRunC
      if run.isEmpty then none
      else
        match r2 with
        | ':' :: r3 => some (c :: run ++ [':'], r3)
        | _ => none
    else none

/-- The three alternatives, tried in the pattern's order. -/
def trySec (s : Str) : Option (Str × Str) :=
  match matchHash s with
  | some v => some v
  | none =>
    match matchNum s with
    | some v => some v
    | none => matchCaps s

def endsNl (m : Str) : Bool := m.getLast? == some '\n'

/-- `re.split` scan: walk the text, attempting the section pattern at every
line start; emit plain-text pieces interleaved with captured delimiters.
The fuel is only a termination device; it is always called with fuel larger
than the text length. -/
def sectionSplitGo : Nat → Str → Bool → Str → List Str
  | 0, _, _, acc => [acc.reverse]
  | fuel + 1, s, ls, acc =>
    match s with
    | [] => [acc.reverse]
    | c :: rest =>
      if ls then
        match trySec (c :: rest) with
        | some (m, r) => acc.reverse :: m :: sectionSplitGo fuel r (endsNl m) []
        | none => sectionSplitGo fuel rest (c == '\n') (c :: acc)
      else sectionSplitGo fuel rest (c == '\n') (c :: acc)

/-- The raw (interleaved) result of `re.split(section_pattern, content)`. -/
def sectionPieces (c : Str) : List Str := sectionSplitGo (c.length + 1) c true []

/-- The recombination loop of `_split_by_sections`:
`for i in range(0, len(sections), 2): result.append(sections[i] + sections[i+1])`
(with the unpaired last piece appended alone). -/
def recombinePairs : List Str → List Str
  | [] => []
  | [t] => [t]
  | t :: d :: rest => (t ++ d) :: recombinePairs rest

/-- `SemanticChunker._split_by_sections`. -/
def splitBySections (c : Str) : List Str := recombinePairs (sectionPieces c)

/-- Even-indexed elements: the plain-text pieces of the interleaved split. -/
def evenIdx : List α → List α
  | [] => []
  | [x] => [x]
  | x :: _ :: r => x :: evenIdx r

/-- Odd-indexed elements: the captured delimiters of the interleaved split. -/
def oddIdx : List α → List α
  | [] => []
  | [_] => []
  | _ :: y :: r => y :: oddIdx r

def sectionTexts (c : Str) : List Str := evenIdx (sectionPieces c)

def sectionDelims (c : Str) : List Str := oddIdx (sectionPieces c)

/-! ## Semantic chunker: `_split_by_sentences` and packing -/

def isPunct (c : Char) : Bool := c == '.' || c == '!' || c == '?'

/-- `re.split(r'(?<=[.!?])\s+', content)`: split and drop each maximal
whitespace run that directly follows `.`, `!` or `?`. -/
def sentenceSplitGo : Nat → Str → Bool → Str → List Str
  | 0, _, _, acc => [acc.reverse]
  | fuel + 1, s, pp, acc =>
    match s with
    | [] => [acc.reverse]
    | c :: rest =>
      if pp && isPyWs c then
        acc.reverse :: sentenceSplitGo fuel (rest.dropWhile isPyWs) false []
      else sentenceSplitGo fuel rest (isPunct c) (c :: acc)

def splitSentences (s : Str) : List Str := sentenceSplitGo (s.length + 1) s false []

/-- The greedy sentence-packing loop of `_split_by_sentences` (joins with a
single space; an empty running buffer is falsy in Python). -/
def packGo (tok : Str → Nat) (mx : Nat) : List Str → Str → List Str → List Str
  | [], cur, chunks => if cur.isEmpty then chunks else chunks ++ [cur]
  | sn :: rest, cur, chunks =>
    let test := if cur.isEmpty then sn else cur ++ ' ' :: sn
    if tok test ≤ mx then packGo tok mx rest test chunks
    else if cur.isEmpty then packGo tok mx rest sn chunks
    else packGo tok mx rest sn (chunks ++ [cur])

/-- `SemanticChunker._split_by_sentences`. -/
def splitBySentences (tok : Str → Nat) (mx : Nat) (s : Str) : List Str :=
  packGo tok mx (splitSentences s) [] []

/-- `SemanticChunker.chunk` (the `doc_type` argument is unused by the code). -/
def semanticChunk (tok : Str → Nat) (mx : Nat) (c : Str) : List Str :=
  let raw := ((splitBySections c).map fun sec =>
    if tok sec ≤ mx then [sec] else splitBySentences tok mx sec).flatten
  (raw.map pyStrip).filter (fun x => !x.isEmpty)

/-! ## Hierarchical chunker -/

structure DocSection where
  level : Nat
  title : Str
  content : List Str
deriving DecidableEq, Repr

/-- `re.match(r'^(#{1,6})\s+(.+)$', line)` on an already-stripped line. -/
def headerMatch (l : Str) : Option (Nat × Str) :=
  let hs := l.takeWhile isHashC
  let r1 := l.dropWhile isHashC
  if hs.length == 0 || decide (6 < hs.length) then none
  else
    let ws := r1.takeWhile isPyWs
    let r2 := r1.dropWhile isPyWs
    if ws.isEmpty || r2.isEmpty then none
    else some (hs.length, r2)

def introTitle : Str := litS "Introduction"

/-- Headerless content before the first heading: append to a trailing
level-0 "Introduction" section, creating it if absent. -/
def pushPlainLine (st : List DocSection) (l : Str) : List DocSection :=
  match st.getLast? with
  | some sec =>
    if sec.level == 0 then st.dropLast ++ [{ sec with content := sec.content ++ [l] }]
    else st ++ [⟨0, introTitle, [l]⟩]
  | none => [⟨0, introTitle, [l]⟩]

/-- `HierarchicalChunker._parse_structure` main loop. -/
def parseGo : List Str → Option DocSection → List DocSection → List DocSection
  | [], cur, st => st ++ cur.toList
  | l :: rest, cur, st =>
    let l2 := pyStrip l
    if l2.isEmpty then parseGo rest cur st
    else
      match headerMatch l2 with
      | some lt => parseGo rest (some ⟨lt.1, lt.2, []⟩) (st ++ cur.toList)
      | none =>
        match cur with
        | some sec => parseGo rest (some { sec with content := sec.content ++ [l2] }) st
        | none => parseGo rest none (pushPlainLine st l2)

def parseStructure (c : Str) : List DocSection := parseGo (splitCh '\n' c) none []

def nlnl : Str := litS "\n\n"

/-- The running context header `"# {title}\n\n"`. -/
def titleHdr (t : Str) : Str := '#' :: ' ' :: t ++ nlnl

/-- Python `str.split("\n\n")` (leftmost, non-overlapping). -/
def splitSeqGo (sep : Str) : Nat → Str → Str → List Str
  | 0, s, acc => [acc.reverse ++ s]
  | fuel + 1, s, acc =>
    match s with
    | [] => [acc.reverse]
    | c :: rest =>
      if sep.isPrefixOf (c :: rest) then
        acc.reverse :: splitSeqGo sep fuel ((c :: rest).drop sep.length) []
      else splitSeqGo sep fuel rest (c :: acc)

def splitOnSeq (sep s : Str) : List Str := splitSeqGo sep (s.length + 1) s []

/-- The paragraph-repacking loop of `_chunk_section` (`hdr` is the title
header; the buffer is flushed stripped, guarded against a bare `hdr`). -/
def chunkSecGo (tok : Str → Nat) (mx : Nat) (hdr : Str) :
    List Str → Str → List Str → List Str
  | [], cur, chunks => if cur == hdr then chunks else chunks ++ [pyStrip cur]
  | p :: rest, cur, chunks =>
    let test := cur ++ p ++ nlnl
    if tok test ≤ mx then chunkSecGo tok mx hdr rest test chunks
    else
      if cur == hdr then chunkSecGo tok mx hdr rest (hdr ++ p ++ nlnl) chunks
      else chunkSecGo tok mx hdr rest (hdr ++ p ++ nlnl) (chunks ++ [pyStrip cur])

/-- `'\n'.join(section['content'])`. -/
def secBody (sec : DocSection) : Str := List.intercalate ['\n'] sec.content

/-- The candidate chunk `f"# {title}\n\n{content}"`. -/
def secFull (sec : DocSection) : Str := titleHdr sec.title ++ secBody sec

/-- `HierarchicalChunker._chunk_section`. -/
def chunkSection (tok : Str → Nat) (mx : Nat) (sec : DocSection) : List Str :=
  if tok (secFull sec) ≤ mx then [secFull sec]
  else chunkSecGo tok mx (titleHdr sec.title) (splitOnSeq nlnl (secBody sec))
    (titleHdr sec.title) []

/-- `HierarchicalChunker.chunk` (no stripping or empty-filtering here). -/
def hierChunk (tok : Str → Nat) (mx : Nat) (c : Str) : List Str :=
  ((parseStructure c).map (chunkSection tok mx)).flatten

/-! ## Code-aware chunker -/

def fenceS : Str := litS "```"

/-- Split the text at the first occurrence of three backticks. -/
def splitFence : Str → Option (Str × Str)
  | '`' :: '`' :: '`' :: r => some ([], r)
  | c :: r => (splitFence r).map (fun pr => (c :: pr.1, pr.2))
  | [] => none

/-- One scan producing both `re.split(r'```[\s\S]*?```', content)` (the prose
parts) and `re.findall` of the same pattern (the fenced blocks): non-greedy
matching pairs each opening fence with the nearest closing fence. -/
def fenceScanGo : Nat → Str → List Str × List Str
  | 0, s => ([s], [])
  | fuel + 1, s =>
    match splitFence s with
    | none => ([s], [])
    | some (pre, r1) =>
      match splitFence r1 with
      | none => ([s], [])
      | some (mid, r2) =>
        let res := fenceScanGo fuel r2
        (pre :: res.1, (fenceS ++ mid ++ fenceS) :: res.2)

def fenceScan (s : Str) : List Str × List Str := fenceScanGo (s.length + 1) s

/-- `re.sub(r'^```.*\n|```$', '', code_block, flags=re.MULTILINE)`:
a whole fence line (with its newline) is removed at line starts, and a bare
fence at a line end is removed anywhere. -/
def fenceSubGo : Nat → Str → Bool → Str
  | 0, s, _ => s
  | fuel + 1, s, ls =>
    match s with
    | [] => []
    | c :: rest =>
      if fenceS.isPrefixOf (c :: rest) then
        let after := (c :: rest).drop 3
        if ls then
          match after.dropWhile notNl with
          | '\n' :: r2 => fenceSubGo fuel r2 true
          | _ => if after.isEmpty then [] else c :: fenceSubGo fuel rest (c == '\n')
        else
          match after with
          | [] => []
          | '\n' :: _ => fenceSubGo fuel after false
          | _ => c :: fenceSubGo fuel rest (c == '\n')
      else c :: fenceSubGo fuel rest (c == '\n')

def fenceSub (s : Str) : Str := fenceSubGo (s.length + 1) s true

def isWordChar (c : Char) : Bool := c.isAlphanum || c == '_'

/-- Head of a declaration pattern `^kw\s+\w+` at the current position;
returns the consumed text and the remainder. -/
def declHeadMatch (kw : Str) (s : Str) : Option (Str × Str) :=
  if kw.isPrefixOf s then
    let r1 := s.drop kw.length
    let ws := r1.takeWhile isPyWs
    let r2 := r1.dropWhile isPyWs
    if ws.isEmpty then none
    else
      let wd := r2.takeWhile isWordChar
      let r3 := r2.dropWhile isWordChar
      if wd.isEmpty then none else some (kw ++ ws ++ wd, r3)
  else none

/-- The lookahead `(?=^kw\s+)`. -/
def lookaheadDecl (kw : Str) (s : Str) : Bool :=
  kw.isPrefixOf s &&
    (match (s.drop kw.length).head? with
     | some c => isPyWs c
     | none => false)

/-- The non-greedy body `[\s\S]*?` extended until `(?=^kw\s+)` or `\Z`;
returns the consumed body and the remainder at the stop position. -/
def declBody (kw : Str) : Nat → Str → Bool → Str × Str
  | 0, s, _ => (s, [])
  | fuel + 1, s, ls =>
    match s with
    | [] => ([], [])
    | c :: rest =>
      if ls && lookaheadDecl kw (c :: rest) then ([], c :: rest)
      else
        let res := declBody kw fuel rest (c == '\n')
        (c :: res.1, res.2)

/-- `re.findall(r'(?m)^kw\s+\w+.*?(?=^kw\s+|\Z)', code, re.DOTALL)`. -/
def declFindGo (kw : Str) : Nat → Str → Bool → List Str
  | 0, _, _ => []
  | fuel + 1, s, ls =>
    match s with
    | [] => []
    | c :: rest =>
      if ls then
        match declHeadMatch kw (c :: rest) with
        | some (hd, r3) =>
          let body := declBody kw (r3.length + 1) r3 false
          (hd ++ body.1) :: declFindGo kw fuel body.2 true
        | none => declFindGo kw fuel rest (c == '\n')
      else declFindGo kw fuel rest (c == '\n')

def declFindall (kw : Str) (s : Str) : List Str := declFindGo kw (s.length + 1) s true

def wrapFence (s : Str) : Str := litS "```\n" ++ s ++ litS "\n```"

/-- The line-by-line fallback packing of `_split_code_block`, re-wrapping each
fragment in fence markers. -/
def linePackGo (tok : Str → Nat) (mx : Nat) : List Str → Str → List Str → List Str
  | [], cur, chunks => if cur.isEmpty then chunks else chunks ++ [wrapFence cur]
  | l :: rest, cur, chunks =>
    let test := if cur.isEmpty then l else cur ++ '\n' :: l
    if tok test ≤ mx then linePackGo tok mx rest test chunks
    else if cur.isEmpty then linePackGo tok mx rest l chunks
    else linePackGo tok mx rest l (chunks ++ [wrapFence cur])

/-- The four structural patterns, tried in order; the first that yields any
match wins. -/
def firstDecls (cc : Str) : List Str :=
  match declFindall (litS "def") cc with
  | m :: ms => m :: ms
  | [] =>
    match declFindall (litS "class") cc with
    | m :: ms => m :: ms
    | [] =>
      match declFindall (litS "function") cc with
      | m :: ms => m :: ms
      | [] => declFindall (litS "public") cc

/-- `CodeAwareChunker._split_code_block`. -/
def splitCodeBlock (tok : Str → Nat) (mx : Nat) (cb : Str) : List Str :=
  let cc := fenceSub cb
  match firstDecls cc with
  | [] => linePackGo tok mx (splitCh '\n' cc) [] []
  | m :: ms => (m :: ms).map wrapFence

/-- The main loop of `CodeAwareChunker.chunk`: prose parts are semantically
chunked when non-blank; the code block at the same index follows. -/
def codeLoop (tok : Str → Nat) (mx : Nat) : List Str → List Str → List Str
  | [], _ => []
  | p :: ps, bs =>
    let pro := if (pyStrip p).isEmpty then [] else semanticChunk tok mx p
    match bs with
    | [] => pro ++ codeLoop tok mx ps []
    | b :: bs2 =>
      pro ++ (if tok b ≤ mx then [b] else splitCodeBlock tok mx b) ++ codeLoop tok mx ps bs2

/-- `CodeAwareChunker.chunk`. -/
def codeAwareChunk (tok : Str → Nat) (mx : Nat) (c : Str) : List Str :=
  let pb := fenceScan c
  let raw := codeLoop tok mx pb.1 pb.2
  (raw.map pyStrip).filter (fun x => !x.isEmpty)

/-! ## Document classifier

Each genre pattern is a case-insensitive word-boundary keyword alternation
`(?i)\b(w1|w2|...)\b` counted with `re.findall` (leftmost, non-overlapping),
except the second API pattern `(?i)\b(get|post|put|delete|patch)\s+/`. -/

inductive DocumentType
  | TECHNICAL_DOC | SUPPORT_TICKET | API_REFERENCE | POLICY | TUTORIAL | CODE | UNKNOWN
deriving DecidableEq, Repr

inductive ChunkingStrategy
  | SEMANTIC | CODE_AWARE | HIERARCHICAL | FIXED_SIZE
deriving DecidableEq, Repr

/-- Case-insensitive literal prefix test (ASCII lowering, as `re.IGNORECASE`
behaves on these ASCII keywords). -/
def ciPre : Str → Str → Bool
  | [], _ => true
  | _ :: _, [] => false
  | a :: as, b :: bs => (a.toLower == b.toLower) && ciPre as bs

/-- The `\b` after the alternation group: a boundary between the keyword's
last character and what follows. -/
def wordBoundaryOk (w : Str) (rest : Str) : Bool :=
  match w.getLast? with
  | none => false
  | some e =>
    if isWordChar e then
      match rest.head? with
      | none => true
      | some c => !isWordChar c
    else
      match rest.head? with
      | none => false
      | some c => isWordChar c

/-- Ordered alternation over the keyword list at the current position. -/
def tryWords (ws : List Str) (s : Str) : Option (Str × Str) :=
  match ws with
  | [] => none
  | w :: rest =>
    let r := s.drop w.length
    if ciPre w s && wordBoundaryOk w r then some (s.take w.length, r)
    else tryWords rest s

/-- `len(re.findall(r'(?i)\b(w1|...)\b', s))`: scan positions left to right;
a keyword may only start where the previous character is not a word
character. -/
def countWordsGo (ws : List Str) : Nat → Str → Bool → Nat
  | 0, _, _ => 0
  | fuel + 1, s, pw =>
    match s with
    | [] => 0
    | c :: rest =>
      if pw then countWordsGo ws fuel rest (isWordChar c)
      else
        match tryWords ws (c :: rest) with
        | some (m, r) =>
          1 + countWordsGo ws fuel r
            (match m.getLast? with | some e => isWordChar e | none => false)
        | none => countWordsGo ws fuel rest (isWordChar c)

def countWords (ws : List Str) (s : Str) : Nat := countWordsGo ws (s.length + 1) s false

def httpVerbs : List Str := [litS "get", litS "post", litS "put", litS "delete", litS "patch"]

/-- One position of `\b(get|post|put|delete|patch)\s+/`. -/
def tryVerbSlash : List Str → Str → Option Str
  | [], _ => none
  | v :: rest, s =>
    if ciPre v s then
      let r1 := s.drop v.length
      let r2 := r1.dropWhile isPyWs
      if !(r1.takeWhile isPyWs).isEmpty && r2.head? == some '/' then some (r2.drop 1)
      else tryVerbSlash rest s
    else tryVerbSlash rest s

def countVerbSlashGo : Nat → Str → Bool → Nat
  | 0, _, _ => 0
  | fuel + 1, s, pw =>
    match s with
    | [] => 0
    | c :: rest =>
      if pw then countVerbSlashGo fuel rest (isWordChar c)
      else
        match tryVerbSlash httpVerbs (c :: rest) with
        | some r => 1 + countVerbSlashGo fuel r false
        | none => countVerbSlashGo fuel rest (isWordChar c)

def countVerbSlash (s : Str) : Nat := countVerbSlashGo (s.length + 1) s false

def apiWordsA : List Str :=
  [litS "endpoint", litS "api", litS "rest", litS "graphql", litS "request",
   litS "response", litS "parameter"]
def apiWordsC : List Str := [litS "json", litS "xml", litS "swagger", litS "openapi"]
def apiWordsD : List Str := [litS "authentication", litS "authorization", litS "token"]
def techWordsA : List Str :=
  [litS "architecture", litS "design", litS "implementation", litS "configuration"]
def techWordsB : List Str := [litS "system", litS "component", litS "module", litS "service"]
def techWordsC : List Str := [litS "requirements", litS "specifications", litS "technical"]
def supWordsA : List Str :=
  [litS "issue", litS "problem", litS "bug", litS "error", litS "ticket"]
def supWordsB : List Str :=
  [litS "reproduce", litS "steps", litS "workaround", litS "solution"]
def supWordsC : List Str :=
  [litS "customer", litS "user", litS "reported", litS "priority"]
def polWordsA : List Str :=
  [litS "policy", litS "procedure", litS "guideline", litS "compliance"]
def polWordsB : List Str :=
  [litS "must", litS "shall", litS "should", litS "required", litS "mandatory"]
def polWordsC : List Str :=
  [litS "approval", litS "review", litS "governance", litS "standard"]
def tutWordsA : List Str :=
  [litS "tutorial", litS "guide", litS "how-to", litS "step-by-step"]
def tutWordsB : List Str :=
  [litS "example", litS "demo", litS "walkthrough", litS "getting started"]
def tutWordsC : List Str := [litS "learn", litS "install", litS "setup", litS "configure"]
def codeWordsA : List Str :=
  [litS "function", litS "class", litS "method", litS "variable", litS "import"]
def codeWordsB : List Str :=
  [litS "def", litS "class", litS "if", litS "else", litS "for", litS "while", litS "return"]
def codeWordsC : List Str :=
  [litS "javascript", litS "python", litS "java", litS "c++", litS "sql"]

/-- Total pattern-match count per genre (`UNKNOWN` has no pattern list). -/
def genreScore (content : Str) : DocumentType → Nat
  | .API_REFERENCE =>
    countWords apiWordsA content + countVerbSlash content +
      countWords apiWordsC content + countWords apiWordsD content
  | .TECHNICAL_DOC =>
    countWords techWordsA content + countWords techWordsB content +
      countWords techWordsC content
  | .SUPPORT_TICKET =>
    countWords supWordsA content + countWords supWordsB content +
      countWords supWordsC content
  | .POLICY =>
    countWords polWordsA content + countWords polWordsB content +
      countWords polWordsC content
  | .TUTORIAL =>
    countWords tutWordsA content + countWords tutWordsB content +
      countWords tutWordsC content
  | .CODE =>
    countWords codeWordsA content + countWords codeWordsB content +
      countWords codeWordsC content
  | .UNKNOWN => 0

/-- The dict insertion order of `self.patterns`, which is the iteration order
of `max(scores, key=scores.get)`. -/
def genreOrder : List DocumentType :=
  [.API_REFERENCE, .TECHNICAL_DOC, .SUPPORT_TICKET, .POLICY, .TUTORIAL, .CODE]

/-- Python `max(xs, key=f)`: the first element attaining the maximum
(a later element replaces the current best only when strictly greater). -/
def pyArgmax (f : α → Nat) (x0 : α) (xs : List α) : α :=
  xs.foldl (fun b y => if f b < f y then y else b) x0

def lowerStr (s : Str) : Str := s.map Char.toLower

/-- Python `needle in hay` (substring containment). -/
def containsSub (needle : Str) : Str → Bool
  | [] => needle.isPrefixOf []
  | c :: t => needle.isPrefixOf (c :: t) || containsSub needle t

def codeExts : List Str := [litS ".py", litS ".js", litS ".java", litS ".cpp", litS ".sql"]

/-- The filename short-circuit of `DocumentClassifier.classify`
(applied to the lowercased filename). -/
def filenameRule (fl : Str) : Option DocumentType :=
  if codeExts.any (fun e => containsSub e fl) then some .CODE
  else if containsSub (litS "api") fl || containsSub (litS "swagger") fl then
    some .API_REFERENCE
  else if containsSub (litS "policy") fl || containsSub (litS "procedure") fl then
    some .POLICY
  else if containsSub (litS "tutorial") fl || containsSub (litS "guide") fl then
    some .TUTORIAL
  else none

/-- `DocumentClassifier.classify`. -/
def classify (content fname : Str) : DocumentType :=
  match filenameRule (lowerStr fname) with
  | some t => t
  | none =>
    let best := pyArgmax (genreScore content) DocumentType.API_REFERENCE
      [.TECHNICAL_DOC, .SUPPORT_TICKET, .POLICY, .TUTORIAL, .CODE]
    if 2 < genreScore content best then best else .UNKNOWN

/-! ## Orchestrator -/

structure ChunkMeta where
  chunk_id : Str
  document_id : Str
  chunk_index : Nat
  document_type : DocumentType
  strategy_used : ChunkingStrategy
  token_count : Nat
  section_title : Option Str
deriving DecidableEq, Repr

/-- `ProcessingResult` (the wall-clock `processing_timestamp` is outside the
model). -/
structure ProcessingResult where
  document_id : Str
  document_type : DocumentType
  chunking_strategy : ChunkingStrategy
  chunks : List Str
  metadata : List ChunkMeta
  total_chunks : Nat
deriving DecidableEq, Repr

def strategyMap : DocumentType → ChunkingStrategy
  | .TECHNICAL_DOC => .HIERARCHICAL
  | .SUPPORT_TICKET => .SEMANTIC
  | .API_REFERENCE => .CODE_AWARE
  | .POLICY => .HIERARCHICAL
  | .TUTORIAL => .HIERARCHICAL
  | .CODE => .CODE_AWARE
  | .UNKNOWN => .SEMANTIC

/-- The chunker instances of `IntelligentChunker.__init__`: default budget
512, and the fixed-size strategy reusing the semantic chunker at 256. -/
def runStrategy (tok : Str → Nat) : ChunkingStrategy → Str → List Str
  | .SEMANTIC => semanticChunk tok 512
  | .CODE_AWARE => codeAwareChunk tok 512
  | .HIERARCHICAL => hierChunk tok 512
  | .FIXED_SIZE => semanticChunk tok 256

def natDigits (n : Nat) : Str := (toString n).data

/-- `IntelligentChunker._extract_section_title`: first stripped line starting
with `#`, with leading hashes removed and re-stripped. -/
def extractSectionTitle (ch : Str) : Option Str :=
  (splitCh '\n' ch).findSome? fun l =>
    let l2 := pyStrip l
    match l2.head? with
    | some '#' => some (pyStrip (l2.dropWhile isHashC))
    | _ => none

/-- `IntelligentChunker.process_document`.  `md5hex` models
`hashlib.md5(content.encode()).hexdigest()`; an absent or empty (falsy)
`doc_id` is replaced by its first 8 characters. -/
def processDocument (md5hex : Str → Str) (tok : Str → Nat)
    (content fname : Str) (docId : Option Str) : ProcessingResult :=
  let did := match docId with
    | some d => if d.isEmpty then (md5hex content).take 8 else d
    | none => (md5hex content).take 8
  let dt := classify content fname
  let strat := strategyMap dt
  let chunks := runStrategy tok strat content
  let metas := chunks.enum.map fun ic =>
    { chunk_id := did ++ litS "_chunk_" ++ natDigits ic.1
      document_id := did
      chunk_index := ic.1
      document_type := dt
      strategy_used := strat
      token_count := tok ic.2
      section_title := extractSectionTitle ic.2 : ChunkMeta }
  { document_id := did, document_type := dt, chunking_strategy := strat,
    chunks := chunks, metadata := metas, total_chunks := chunks.length }

/-- The maximum content score over the six scored genres. -/
def maxGenreScore (c : Str) : Nat := (genreOrder.map (genreScore c)).foldr max 0

/-- The first genre in enumeration order whose score attains the maximum. -/
def firstMaxGenre (c : Str) : DocumentType :=
  (genreOrder.find? fun g => genreScore c g == maxGenreScore c).getD .UNKNOWN

/-- Modelled from the spec: "reassemble each delimiter with the text that
follows it into one section unit" — the delimiter-with-following-text pairing
that claim C3 describes (the leading text piece is its own unit). -/
def splitBySectionsSpecPair (c : Str) : List Str :=
  match sectionTexts c with
  | [] => []
  | t0 :: ts => t0 :: List.zipWith (· ++ ·) (sectionDelims c) ts

/-! # Proofs -/

theorem matchHash_consume {s m r : Str} (h : matchHash s = some (m, r)) :
    m ++ r = s ∧ m ≠ [] := by
  simp only [matchHash] at h
  split at h
  · exact absurd h (by simp)
  · split at h
    · exact absurd h (by simp)
    · rename_i h1 _
      injection h with h
      injection h with hm hr
      subst hm hr
      constructor
      · rw [List.append_assoc, List.append_assoc, List.takeWhile_append_dropWhile,
          List.takeWhile_append_dropWhile, List.takeWhile_append_dropWhile]
      · intro hnil
        have hA : List.takeWhile isHashC s = [] :=
          (List.append_eq_nil.mp ((List.append_eq_nil.mp hnil).1)).1
        rw [hA] at h1
        simp at h1

theorem matchNum_consume {s m r : Str} (h : matchNum s = some (m, r)) :
    m ++ r = s ∧ m ≠ [] := by
  simp only [matchNum] at h
  split at h
  · exact absurd h (by simp)
  · split at h
    · rename_i heq
      split at h
      · exact absurd h (by simp)
      · injection h with h
        injection h with hm hr
        subst hm hr
        refine ⟨?_, by simp⟩
        simp only [List.append_assoc, List.cons_append]
        rw [List.takeWhile_append_dropWhile, List.takeWhile_append_dropWhile, ← heq,
          List.takeWhile_append_dropWhile]
    · exact absurd h (by simp)

theorem matchCaps_consume {s m r : Str} (h : matchCaps s = some (m, r)) :
    m ++ r = s ∧ m ≠ [] := by
  simp only [matchCaps] at h
  split at h
  · exact absurd h (by simp)
  · rename_i c r1
    split at h
    · split at h
      · exact absurd h (by simp)
      · split at h
        · rename_i heq
          injection h with h
          injection h with hm hr
          subst hm hr
          refine ⟨?_, by simp⟩
          simp only [List.cons_append, List.append_assoc, List.singleton_append,
            List.nil_append, List.cons.injEq, true_and]
          rw [← heq]
          exact List.takeWhile_append_dropWhile ..
        · exact absurd h (by simp)
    · exact absurd h (by simp)

theorem trySec_consume {s m r : Str} (h : trySec s = some (m, r)) :
    m ++ r = s ∧ m ≠ [] := by
  simp only [trySec] at h
  split at h
  · rename_i h1
    injection h with h
    subst h
    exact matchHash_consume h1
  · split at h
    · rename_i h2
      injection h with h
      subst h
      exact matchNum_consume h2
    · exact matchCaps_consume h

theorem sectionSplitGo_flatten : ∀ (fuel : Nat) (s : Str) (ls : Bool) (acc : Str),
    s.length < fuel → (sectionSplitGo fuel s ls acc).flatten = acc.reverse ++ s := by
  intro fuel
  induction fuel with
  | zero => intro s ls acc h; exact absurd h (by simp)
  | succ n ih =>
    intro s ls acc h
    match s with
    | [] => simp [sectionSplitGo]
    | c :: rest =>
      have hrest : rest.length < n := by
        simp only [List.length_cons] at h; omega
      simp only [sectionSplitGo]
      cases ls with
      | false =>
        simp only [Bool.false_eq_true, if_false]
        rw [ih rest (c == '\n') (c :: acc) hrest]
        simp
      | true =>
        simp only [if_true]
        cases htr : trySec (c :: rest) with
        | some v =>
          obtain ⟨m, r⟩ := v
          obtain ⟨hmr, hm⟩ := trySec_consume htr
          have hr : r.length < n := by
            have hlen := congrArg List.length hmr
            simp only [List.length_append, List.length_cons] at hlen
            have hmp : 0 < m.length := List.length_pos.mpr hm
            omega
          simp only [List.flatten_cons]
          rw [ih r (endsNl m) [] hr]
          simp only [List.reverse_nil, List.nil_append, ← List.append_assoc]
          rw [List.append_assoc acc.reverse m r, hmr]
        | none =>
          rw [ih rest (c == '\n') (c :: acc) hrest]
          simp

theorem sectionPieces_flatten (c : Str) : (sectionPieces c).flatten = c := by
  unfold sectionPieces
  rw [sectionSplitGo_flatten (c.length + 1) c true [] (by omega)]
  simp

theorem recombinePairs_flatten : ∀ l : List Str, (recombinePairs l).flatten = l.flatten := by
  intro l
  induction l using recombinePairs.induct with
  | case1 => rfl
  | case2 t => simp [recombinePairs]
  | case3 t d rest ih => simp [recombinePairs, ih]

theorem sectionSplitGo_length_odd : ∀ (fuel : Nat) (s : Str) (ls : Bool) (acc : Str),
    (sectionSplitGo fuel s ls acc).length % 2 = 1 := by
  intro fuel
  induction fuel with
  | zero => intro s ls acc; rfl
  | succ n ih =>
    intro s ls acc
    match s with
    | [] => rfl
    | c :: rest =>
      simp only [sectionSplitGo]
      cases ls with
      | false => exact ih rest (c == '\n') (c :: acc)
      | true =>
        simp only [if_true]
        cases htr : trySec (c :: rest) with
        | some v =>
          obtain ⟨m, r⟩ := v
          simp only [List.length_cons]
          have := ih r (endsNl m) []
          omega
        | none => exact ih rest (c == '\n') (c :: acc)

theorem evenIdx_oddIdx_length : ∀ l : List α, l.length % 2 = 1 →
    (evenIdx l).length = (oddIdx l).length + 1 := by
  intro l
  induction l using evenIdx.induct with
  | case1 => intro h; simp at h
  | case2 x => intro h; rfl
  | case3 x y r ih =>
    intro h
    simp only [List.length_cons] at h
    simp only [evenIdx, oddIdx, List.length_cons]
    rw [ih (by omega)]

theorem recombinePairs_zip : ∀ l : List Str,
    recombinePairs l =
      List.zipWith (· ++ ·) (evenIdx l) (oddIdx l) ++ (evenIdx l).drop (oddIdx l).length := by
  intro l
  induction l using recombinePairs.induct with
  | case1 => rfl
  | case2 t => rfl
  | case3 t d rest ih =>
    simp only [recombinePairs, evenIdx, oddIdx, List.zipWith_cons_cons, List.length_cons,
      List.drop_succ_cons, List.cons_append]
    rw [ih]

/-- C10: for every input content, the concatenation, in order, of the section
strings returned by the semantic chunker's `_split_by_sections` equals the
original content exactly: section splitting loses no text and duplicates no
text. -/
theorem c10_section_split_preserves_content (c : Str) :
    (splitBySections c).flatten = c := by
  unfold splitBySections
  rw [recombinePairs_flatten, sectionPieces_flatten]

/-- C10 witness at a concrete input. -/
theorem c10_witness :
    (splitBySections (litS "pre\n# A\nbodyA\n# B\nbodyB")).flatten =
      litS "pre\n# A\nbodyA\n# B\nbodyB" :=
  c10_section_split_preserves_content (litS "pre\n# A\nbodyA\n# B\nbodyB")

/-- C3 (amended): `_split_by_sections` drops no recognized delimiter, but each
delimiter is reassembled into one unit with the text that PRECEDES it; the
text following the final delimiter forms the final unit on its own. -/
theorem c3_delimiter_pairing (c : Str) :
    (sectionTexts c).length = (sectionDelims c).length + 1 ∧
    splitBySections c =
      List.zipWith (· ++ ·) (sectionTexts c) (sectionDelims c) ++
        (sectionTexts c).drop (sectionDelims c).length :=
  ⟨evenIdx_oddIdx_length _ (sectionSplitGo_length_odd ..), recombinePairs_zip _⟩

/-- C3 (counterexample): on `"# A\nbody\n# B\nbody2"` the delimiter `"# A"` is
recognized, yet no produced section unit contains the delimiter together with
the text `"body"` that follows it, and the result differs from the pairing the
spec describes. -/
theorem c3_counterexample :
    sectionDelims (litS "# A\nbody\n# B\nbody2") = [litS "# A", litS "# B"] ∧
    splitBySections (litS "# A\nbody\n# B\nbody2") =
      [litS "# A", litS "\nbody\n# B", litS "\nbody2"] ∧
    splitBySections (litS "# A\nbody\n# B\nbody2") ≠
      splitBySectionsSpecPair (litS "# A\nbody\n# B\nbody2") ∧
    (splitBySections (litS "# A\nbody\n# B\nbody2")).all
      (fun u => !containsSub (litS "# A\nbody") u) = true := by decide

/-- C1: chunks, metadata and total_chunks always agree in length, and the i-th
metadata entry carries chunk_index i (dense, 0-based, no gaps). -/
theorem c1_metadata_alignment (md5hex : Str → Str) (tok : Str → Nat)
    (content fname : Str) (docId : Option Str) :
    (processDocument md5hex tok content fname docId).chunks.length =
      (processDocument md5hex tok content fname docId).metadata.length ∧
    (processDocument md5hex tok content fname docId).metadata.length =
      (processDocument md5hex tok content fname docId).total_chunks ∧
    ∀ i (h : i < (processDocument md5hex tok content fname docId).metadata.length),
      ((processDocument md5hex tok content fname docId).metadata.get ⟨i, h⟩).chunk_index = i := by
  refine ⟨?_, ?_, ?_⟩
  · simp [processDocument, List.enum_length]
  · simp [processDocument, List.enum_length]
  · intro i h
    simp only [processDocument] at h ⊢
    simp only [List.get_eq_getElem, List.getElem_map]
    simp only [List.length_map, List.enum_length] at h
    rw [List.getElem_enum]

/-- C1 witness at a concrete input. -/
theorem c1_metadata_alignment_witness :
    ((processDocument (fun _ => litS "0123456789abcdef") (fun _ => 0)
        (litS "hello") [] none).metadata.get ⟨0, by decide⟩).chunk_index = 0 :=
  (c1_metadata_alignment (fun _ => litS "0123456789abcdef") (fun _ => 0)
    (litS "hello") [] none).2.2 0 (by decide)

/-- C8 (amended): a caller-supplied NON-EMPTY document_id is returned
unchanged; an absent document_id — and likewise an empty (falsy) one — is
replaced by the first 8 characters of the content hash, hence identical
content always derives the identical id. -/
theorem c8_document_id (md5hex : Str → Str) (tok : Str → Nat) (content fname : Str) :
    (∀ d : Str, d ≠ [] →
      (processDocument md5hex tok content fname (some d)).document_id = d) ∧
    (processDocument md5hex tok content fname none).document_id =
      (md5hex content).take 8 ∧
    (processDocument md5hex tok content fname (some [])).document_id =
      (md5hex content).take 8 := by
  refine ⟨fun d hd => ?_, rfl, rfl⟩
  cases d with
  | nil => exact absurd rfl hd
  | cons a as => rfl

/-- C8 witness at a concrete input. -/
theorem c8_document_id_witness :
    (processDocument (fun _ => litS "0123456789abcdef") (fun _ => 0) (litS "x") []
        (some (litS "id7"))).document_id = litS "id7" :=
  (c8_document_id (fun _ => litS "0123456789abcdef") (fun _ => 0) (litS "x") []).1
    (litS "id7") (by decide)

/-- C8 (counterexample): a caller who supplies the empty string as document_id
does not get it back — Python's falsy check replaces it by the derived hash
id. -/
theorem c8_counterexample :
    (processDocument (fun _ => litS "0123456789abcdef") (fun _ => 0) (litS "x") []
        (some [])).document_id = litS "01234567" ∧
    (processDocument (fun _ => litS "0123456789abcdef") (fun _ => 0) (litS "x") []
        (some [])).document_id ≠ ([] : Str) := by decide

theorem packGo_empty_sentence (tok : Str → Nat) (mx : Nat) :
    packGo tok mx [([] : Str)] [] [] = [] := by
  unfold packGo
  by_cases h2 : tok [] ≤ mx <;> simp [h2, packGo]

theorem semanticChunk_nil (tok : Str → Nat) (mx : Nat) : semanticChunk tok mx [] = [] := by
  unfold semanticChunk
  have hsec : splitBySections ([] : Str) = [[]] := rfl
  rw [hsec]
  by_cases h2 : tok [] ≤ mx
  · simp [h2, pyStrip]
  · have hsb : splitBySentences tok mx [] = [] := by
      unfold splitBySentences
      have hss : splitSentences ([] : Str) = [[]] := rfl
      rw [hss]
      exact packGo_empty_sentence tok mx
    simp [h2, hsb]

/-- C4 (amended): calling process_document with empty content raises no
InvalidInput error; it returns a normal ProcessingResult with zero chunks,
empty metadata and total_chunks = 0 (input rejection is left to callers). -/
theorem c4_empty_content_result (md5hex : Str → Str) (tok : Str → Nat) :
    (processDocument md5hex tok [] [] none).chunks = [] ∧
    (processDocument md5hex tok [] [] none).metadata = [] ∧
    (processDocument md5hex tok [] [] none).total_chunks = 0 := by
  have hrun : runStrategy tok (strategyMap (classify [] [])) [] = [] :=
    semanticChunk_nil tok 512
  refine ⟨?_, ?_, ?_⟩ <;> simp only [processDocument] <;> rw [hrun] <;> rfl

/-- C4 (counterexample): at empty content the call does not fail — it
produces this complete ProcessingResult (zero chunks, derived id), so no
InvalidInput error and no absence of a result. -/
theorem c4_counterexample :
    processDocument (fun _ => litS "0123456789abcdef") List.length [] [] none =
      { document_id := litS "01234567", document_type := .UNKNOWN,
        chunking_strategy := .SEMANTIC, chunks := [], metadata := [],
        total_chunks := 0 } := by decide

theorem fenceScanGo_parts_length : ∀ (fuel : Nat) (s : Str),
    (fenceScanGo fuel s).1.length = (fenceScanGo fuel s).2.length + 1 := by
  intro fuel
  induction fuel with
  | zero => intro s; rfl
  | succ n ih =>
    intro s
    cases h1 : splitFence s with
    | none => simp [fenceScanGo, h1]
    | some v1 =>
      obtain ⟨pre, r1⟩ := v1
      cases h2 : splitFence r1 with
      | none => simp [fenceScanGo, h1, h2]
      | some v2 =>
        obtain ⟨mid, r2⟩ := v2
        simp only [fenceScanGo, h1, h2, List.length_cons]
        rw [ih r2]

theorem fenceScanGo_block_shape : ∀ (fuel : Nat) (s b : Str),
    b ∈ (fenceScanGo fuel s).2 → ∃ mid, b = fenceS ++ mid ++ fenceS := by
  intro fuel
  induction fuel with
  | zero => intro s b hb; exact absurd hb (by simp [fenceScanGo])
  | succ n ih =>
    intro s b hb
    cases h1 : splitFence s with
    | none => rw [fenceScanGo] at hb; rw [h1] at hb; exact absurd hb (by simp)
    | some v1 =>
      obtain ⟨pre, r1⟩ := v1
      cases h2 : splitFence r1 with
      | none =>
        simp only [fenceScanGo, h1, h2] at hb
        exact absurd hb (by simp)
      | some v2 =>
        obtain ⟨mid, r2⟩ := v2
        simp only [fenceScanGo, h1, h2, List.mem_cons] at hb
        cases hb with
        | inl he => exact ⟨mid, he⟩
        | inr ht => exact ih r2 b ht

theorem pyStrip_fix (s : Str)
    (h1 : ∀ c, s.head? = some c → isPyWs c = false)
    (h2 : ∀ c, s.getLast? = some c → isPyWs c = false) : pyStrip s = s := by
  unfold pyStrip
  have hs1 : s.dropWhile isPyWs = s := by
    cases s with
    | nil => rfl
    | cons a as =>
      rw [List.dropWhile_cons, h1 a rfl]
      simp
  rw [hs1]
  have hs2 : s.reverse.dropWhile isPyWs = s.reverse := by
    cases hr : s.reverse with
    | nil => rfl
    | cons a as =>
      have ha : s.getLast? = some a := by
        rw [← List.head?_reverse, hr]; rfl
      rw [List.dropWhile_cons, h2 a ha]
      simp
  rw [hs2, List.reverse_reverse]

theorem pyStrip_fence_block (mid : Str) :
    pyStrip (fenceS ++ mid ++ fenceS) = fenceS ++ mid ++ fenceS := by
  apply pyStrip_fix
  · intro c hc
    injection hc with hc
    rw [← hc]; rfl
  · intro c hc
    rw [List.append_assoc, List.getLast?_append] at hc
    rw [List.getLast?_append] at hc
    injection hc with hc
    rw [← hc]; rfl

theorem codeLoop_mem_block (tok : Str → Nat) (mx : Nat) (b : Str) :
    ∀ (ps bs : List Str), bs.length < ps.length → b ∈ bs → tok b ≤ mx →
      b ∈ codeLoop tok mx ps bs := by
  intro ps
  induction ps with
  | nil => intro bs h; simp at h
  | cons p ps2 ih =>
    intro bs hlen hb hfit
    cases bs with
    | nil => exact absurd hb (by simp)
    | cons b0 bs2 =>
      simp only [codeLoop]
      rcases List.mem_cons.mp hb with he | ht
      · subst he
        refine List.mem_append_left _ (List.mem_append_right _ ?_)
        rw [if_pos hfit]
        exact List.mem_singleton_self b
      · exact List.mem_append_right _
          (ih bs2 (by simp only [List.length_cons] at hlen; omega) ht hfit)

/-- C2 (amended): every fenced code block whose token count is within the
budget appears verbatim (fences included, hence its internal text) as one
emitted chunk of the code-aware chunker; an oversized block is split, so its
internal text may be spread over several chunks or partially dropped. -/
theorem c2_small_block_preserved (tok : Str → Nat) (mx : Nat) (c b : Str)
    (hb : b ∈ (fenceScan c).2) (hfit : tok b ≤ mx) :
    b ∈ codeAwareChunk tok mx c := by
  obtain ⟨mid, hshape⟩ := fenceScanGo_block_shape (c.length + 1) c b hb
  have hmem : b ∈ codeLoop tok mx (fenceScan c).1 (fenceScan c).2 := by
    apply codeLoop_mem_block tok mx b _ _ _ hb hfit
    rw [show fenceScan c = fenceScanGo (c.length + 1) c from rfl,
      fenceScanGo_parts_length]
    omega
  unfold codeAwareChunk
  rw [List.mem_filter]
  constructor
  · rw [List.mem_map]
    exact ⟨b, hmem, by rw [hshape]; exact pyStrip_fence_block mid⟩
  · rw [hshape]
    simp [fenceS, litS]

/-- C2 witness at a concrete input. -/
theorem c2_small_block_preserved_witness :
    litS "```\ny\n```" ∈ codeAwareChunk (fun _ => 0) 512 (litS "x\n```\ny\n```\nz") :=
  c2_small_block_preserved (fun _ => 0) 512 (litS "x\n```\ny\n```\nz")
    (litS "```\ny\n```") (by decide) (by decide)

/-- C2 (counterexample): the source `"```\nAB\nCD\n```"` contains exactly one
fenced code block, but with a tokenizer making it exceed the budget the
code-aware chunker splits it line-by-line: its internal text `"\nAB\nCD\n"`
appears inside NO emitted chunk, not in exactly one. -/
theorem c2_counterexample :
    (fenceScan (litS "```\nAB\nCD\n```")).2 = [litS "```\nAB\nCD\n```"] ∧
    codeAwareChunk (fun s => 120 * s.length) 512 (litS "```\nAB\nCD\n```") =
      [litS "```\nAB\n```", litS "```\nCD\n\n```"] ∧
    (codeAwareChunk (fun s => 120 * s.length) 512 (litS "```\nAB\nCD\n```")).all
      (fun ch => !containsSub (litS "\nAB\nCD\n") ch) = true := by decide

theorem head_dropWhile_not_ws {l : Str} {c : Char}
    (h : (l.dropWhile isPyWs).head? = some c) : isPyWs c = false := by
  have := List.head?_dropWhile_not isPyWs l
  rw [h] at this
  exact this

theorem getLast_dropWhile_eq (p : Char → Bool) : ∀ l : Str,
    l.dropWhile p ≠ [] → (l.dropWhile p).getLast? = l.getLast? := by
  intro l
  induction l with
  | nil => intro h; exact absurd rfl h
  | cons a as ih =>
    intro h
    rw [List.dropWhile_cons]
    rw [List.dropWhile_cons] at h
    by_cases hp : p a
    · rw [if_pos hp] at h ⊢
      rw [ih h, List.getLast?_cons]
      have has : as ≠ [] := by
        intro hnil
        rw [hnil] at h
        exact h rfl
      cases hg : as.getLast? with
      | none =>
        cases as with
        | nil => exact absurd rfl has
        | cons b bs => rw [List.getLast?_cons] at hg; exact absurd hg (by simp)
      | some v => simp [List.getLast?_cons, hg]
    · rw [if_neg hp]

theorem pyStrip_head {s : Str} {c : Char} (h : (pyStrip s).head? = some c) :
    isPyWs c = false := by
  unfold pyStrip at h
  rw [List.head?_reverse] at h
  by_cases hz : ((s.dropWhile isPyWs).reverse.dropWhile isPyWs) = []
  · rw [hz] at h; exact absurd h (by simp)
  · rw [getLast_dropWhile_eq isPyWs _ hz, List.getLast?_reverse] at h
    exact head_dropWhile_not_ws h

theorem pyStrip_last {s : Str} {c : Char} (h : (pyStrip s).getLast? = some c) :
    isPyWs c = false := by
  unfold pyStrip at h
  rw [List.getLast?_reverse] at h
  exact head_dropWhile_not_ws h

theorem pyStrip_idem (s : Str) : pyStrip (pyStrip s) = pyStrip s :=
  pyStrip_fix (pyStrip s) (fun _ h => pyStrip_head h) (fun _ h => pyStrip_last h)

theorem chunkSecGo_inv (tok : Str → Nat) (mx : Nat) (hdr : Str) :
    ∀ (parts : List Str) (cur : Str) (chunks : List Str),
      (∀ ch ∈ chunks, pyStrip ch = ch ∧ ∃ b, b ≠ hdr ∧ ch = pyStrip b) →
      ∀ ch ∈ chunkSecGo tok mx hdr parts cur chunks,
        pyStrip ch = ch ∧ ∃ b, b ≠ hdr ∧ ch = pyStrip b := by
  intro parts
  induction parts with
  | nil =>
    intro cur chunks hch ch hmem
    rw [chunkSecGo] at hmem
    split at hmem
    · exact hch ch hmem
    · rename_i hne
      rcases List.mem_append.mp hmem with hl | hr
      · exact hch ch hl
      · rcases List.mem_singleton.mp hr with rfl
        exact ⟨pyStrip_idem cur, cur, by simpa using hne, rfl⟩
  | cons p rest ih =>
    intro cur chunks hch ch hmem
    rw [chunkSecGo] at hmem
    split at hmem
    · exact ih _ _ hch ch hmem
    · split at hmem
      · exact ih _ _ hch ch hmem
      · rename_i hne
        refine ih _ _ ?_ ch hmem
        intro ch2 hm2
        rcases List.mem_append.mp hm2 with hl | hr
        · exact hch ch2 hl
        · rcases List.mem_singleton.mp hr with rfl
          exact ⟨pyStrip_idem cur, cur, by simpa using hne, rfl⟩

/-- C9 (amended): chunks emitted by the repack path of `_chunk_section` (a
section over budget) are strip-fixed (trimmed), and each is the strip of a
buffer different from the bare title header, so a trailing buffer equal to
just the title prefix is never emitted; a section WITHIN budget, however, is
emitted as `"# {title}\n\n" + body` without trimming. -/
theorem c9_repack_stripped (tok : Str → Nat) (mx : Nat) (sec : DocSection)
    (hover : ¬ tok (secFull sec) ≤ mx) :
    ∀ ch ∈ chunkSection tok mx sec,
      pyStrip ch = ch ∧ ∃ b, b ≠ titleHdr sec.title ∧ ch = pyStrip b := by
  intro ch hmem
  unfold chunkSection at hmem
  rw [if_neg hover] at hmem
  exact chunkSecGo_inv tok mx (titleHdr sec.title) _ _ [] (by simp) ch hmem

/-- C9 witness at a concrete input. -/
theorem c9_repack_stripped_witness :
    pyStrip (litS "# T\n\nx") = litS "# T\n\nx" ∧
    ∃ b, b ≠ titleHdr (litS "T") ∧ litS "# T\n\nx" = pyStrip b :=
  c9_repack_stripped List.length 3 ⟨1, litS "T", [litS "x"]⟩ (by decide)
    (litS "# T\n\nx") (by decide)

/-- C9 (counterexample): a within-budget section is returned untrimmed — for
content `"# T"` the hierarchical chunker emits the chunk `"# T\n\n"`, which
carries trailing whitespace. -/
theorem c9_counterexample :
    hierChunk (fun _ => 0) 512 (litS "# T") = [litS "# T\n\n"] ∧
    pyStrip (litS "# T\n\n") ≠ litS "# T\n\n" := by decide

theorem packGo_budget (tok : Str → Nat) (mx : Nat) (R : Str → Prop) :
    ∀ (sents : List Str) (cur : Str) (chunks : List Str),
      (∀ sn ∈ sents, R sn) →
      (cur = [] ∨ tok cur ≤ mx ∨ R cur) →
      (∀ ch ∈ chunks, tok ch ≤ mx ∨ R ch) →
      ∀ ch ∈ packGo tok mx sents cur chunks, tok ch ≤ mx ∨ R ch := by
  intro sents
  induction sents with
  | nil =>
    intro cur chunks hs hcur hch ch hmem
    rw [packGo] at hmem
    split at hmem
    · exact hch ch hmem
    · rename_i hne
      rcases List.mem_append.mp hmem with hl | hr
      · exact hch ch hl
      · rcases List.mem_singleton.mp hr with rfl
        rcases hcur with h0 | h
        · exact absurd h0 (by simpa [List.isEmpty_iff] using hne)
        · exact h
  | cons sn rest ih =>
    intro cur chunks hs hcur hch ch hmem
    have hs2 : ∀ x ∈ rest, R x := fun x hx => hs x (List.mem_cons_of_mem _ hx)
    have hsn : R sn := hs sn (List.mem_cons_self sn rest)
    simp only [packGo] at hmem
    by_cases hce : cur.isEmpty = true
    · simp only [hce, if_true] at hmem
      split at hmem
      · rename_i htest
        exact ih sn chunks hs2 (Or.inr (Or.inl htest)) hch ch hmem
      · exact ih sn chunks hs2 (Or.inr (Or.inr hsn)) hch ch hmem
    · simp only [hce, Bool.false_eq_true, if_false] at hmem
      split at hmem
      · rename_i htest
        exact ih _ chunks hs2 (Or.inr (Or.inl htest)) hch ch hmem
      · refine ih sn (chunks ++ [cur]) hs2 (Or.inr (Or.inr hsn)) ?_ ch hmem
        intro ch2 hm2
        rcases List.mem_append.mp hm2 with hl | hr
        · exact hch ch2 hl
        · rcases List.mem_singleton.mp hr with rfl
          rcases hcur with h0 | h
          · exact absurd (h0 ▸ rfl) hce
          · exact h

theorem semanticChunk_budget (tok : Str → Nat) (mx : Nat)
    (hmono : ∀ s, tok (pyStrip s) ≤ tok s) (c : Str) :
    ∀ ch ∈ semanticChunk tok mx c, tok ch ≤ mx ∨
      ∃ sec ∈ splitBySections c, ∃ sn ∈ splitSentences sec, ch = pyStrip sn := by
  intro ch hmem
  unfold semanticChunk at hmem
  rw [List.mem_filter] at hmem
  obtain ⟨hmap, -⟩ := hmem
  rw [List.mem_map] at hmap
  obtain ⟨raw0, hraw0, rfl⟩ := hmap
  rw [List.mem_flatten] at hraw0
  obtain ⟨image, himg, hraw0⟩ := hraw0
  rw [List.mem_map] at himg
  obtain ⟨sec, hsec, rfl⟩ := himg
  by_cases hfit : tok sec ≤ mx
  · rw [if_pos hfit] at hraw0
    rcases List.mem_singleton.mp hraw0 with rfl
    exact Or.inl (le_trans (hmono raw0) hfit)
  · rw [if_neg hfit] at hraw0
    have := packGo_budget tok mx (fun x => x ∈ splitSentences sec)
      (splitSentences sec) [] [] (fun _ hx => hx) (Or.inl rfl) (by simp)
      raw0 hraw0
    rcases this with h | h
    · exact Or.inl (le_trans (hmono raw0) h)
    · exact Or.inr ⟨sec, hsec, raw0, h, rfl⟩

theorem chunkSecGo_budget (tok : Str → Nat) (mx : Nat) (hdr : Str)
    (hmono : ∀ s, tok (pyStrip s) ≤ tok s) (R : Str → Prop) :
    ∀ (parts : List Str) (cur : Str) (chunks : List Str),
      (∀ p ∈ parts, R p) →
      (cur = hdr ∨ tok cur ≤ mx ∨ ∃ b, R b ∧ cur = hdr ++ b ++ nlnl) →
      (∀ ch ∈ chunks, tok ch ≤ mx ∨ ∃ b, R b ∧ ch = pyStrip (hdr ++ b ++ nlnl)) →
      ∀ ch ∈ chunkSecGo tok mx hdr parts cur chunks,
        tok ch ≤ mx ∨ ∃ b, R b ∧ ch = pyStrip (hdr ++ b ++ nlnl) := by
  intro parts
  induction parts with
  | nil =>
    intro cur chunks hp hcur hch ch hmem
    rw [chunkSecGo] at hmem
    split at hmem
    · exact hch ch hmem
    · rename_i hne
      rcases List.mem_append.mp hmem with hl | hr
      · exact hch ch hl
      · rcases List.mem_singleton.mp hr with rfl
        rcases hcur with h0 | h | ⟨b, hb, rfl⟩
        · exact absurd h0 (by simpa using hne)
        · exact Or.inl (le_trans (hmono cur) h)
        · exact Or.inr ⟨b, hb, rfl⟩
  | cons p rest ih =>
    intro cur chunks hp hcur hch ch hmem
    rw [chunkSecGo] at hmem
    split at hmem
    · rename_i htest
      exact ih _ _ (fun x hx => hp x (List.mem_cons_of_mem _ hx))
        (Or.inr (Or.inl htest)) hch ch hmem
    · split at hmem
      · exact ih _ _ (fun x hx => hp x (List.mem_cons_of_mem _ hx))
          (Or.inr (Or.inr ⟨p, hp p (List.mem_cons_self p rest), rfl⟩)) hch ch hmem
      · rename_i hne
        refine ih _ _ (fun x hx => hp x (List.mem_cons_of_mem _ hx))
          (Or.inr (Or.inr ⟨p, hp p (List.mem_cons_self p rest), rfl⟩)) ?_ ch hmem
        intro ch2 hm2
        rcases List.mem_append.mp hm2 with hl | hr
        · exact hch ch2 hl
        · rcases List.mem_singleton.mp hr with rfl
          rcases hcur with h0 | h | ⟨b, hb, rfl⟩
          · exact absurd h0 (by simpa using hne)
          · exact Or.inl (le_trans (hmono cur) h)
          · exact Or.inr ⟨b, hb, rfl⟩

theorem hierChunk_budget (tok : Str → Nat) (mx : Nat)
    (hmono : ∀ s, tok (pyStrip s) ≤ tok s) (c : Str) :
    ∀ ch ∈ hierChunk tok mx c, tok ch ≤ mx ∨
      ∃ sec ∈ parseStructure c, ∃ p ∈ splitOnSeq nlnl (secBody sec),
        ch = pyStrip (titleHdr sec.title ++ p ++ nlnl) := by
  intro ch hmem
  unfold hierChunk at hmem
  rw [List.mem_flatten] at hmem
  obtain ⟨image, himg, hmem⟩ := hmem
  rw [List.mem_map] at himg
  obtain ⟨sec, hsec, rfl⟩ := himg
  unfold chunkSection at hmem
  by_cases hfit : tok (secFull sec) ≤ mx
  · rw [if_pos hfit] at hmem
    rcases List.mem_singleton.mp hmem with rfl
    exact Or.inl hfit
  · rw [if_neg hfit] at hmem
    have := chunkSecGo_budget tok mx (titleHdr sec.title) hmono
      (fun x => x ∈ splitOnSeq nlnl (secBody sec)) (splitOnSeq nlnl (secBody sec))
      (titleHdr sec.title) [] (fun _ hx => hx) (Or.inl rfl) (by simp) ch hmem
    rcases this with h | ⟨b, hb, rfl⟩
    · exact Or.inl h
    · exact Or.inr ⟨sec, hsec, b, hb, rfl⟩

/-- C5: for the Semantic and Hierarchical chunkers, every emitted chunk
either respects the token budget or is a single atomic unit emitted whole
and untruncated — the strip of one sentence of one section (Semantic), or
the title header plus one single paragraph (Hierarchical). -/
theorem c5_token_budget (tok : Str → Nat) (mx : Nat)
    (hmono : ∀ s, tok (pyStrip s) ≤ tok s) (c : Str) :
    (∀ ch ∈ semanticChunk tok mx c, tok ch ≤ mx ∨
      ∃ sec ∈ splitBySections c, ∃ sn ∈ splitSentences sec, ch = pyStrip sn) ∧
    (∀ ch ∈ hierChunk tok mx c, tok ch ≤ mx ∨
      ∃ sec ∈ parseStructure c, ∃ p ∈ splitOnSeq nlnl (secBody sec),
        ch = pyStrip (titleHdr sec.title ++ p ++ nlnl)) :=
  ⟨semanticChunk_budget tok mx hmono c, hierChunk_budget tok mx hmono c⟩

/-- C5 witness at a concrete input. -/
theorem c5_token_budget_witness :
    (fun _ => (0 : Nat)) (litS "hi") ≤ 512 ∨
      ∃ sec ∈ splitBySections (litS "hi"), ∃ sn ∈ splitSentences sec,
        litS "hi" = pyStrip sn :=
  (c5_token_budget (fun _ => (0 : Nat)) 512 (fun _ => Nat.le_refl 0) (litS "hi")).1
    (litS "hi") (by decide)

theorem pyArgmax_cons (f : α → Nat) (x0 y : α) (ys : List α) :
    pyArgmax f x0 (y :: ys) = pyArgmax f (if f x0 < f y then y else x0) ys := rfl

theorem pyArgmax_first_max (f : α → Nat) : ∀ (xs : List α) (x0 : α),
    List.find? (fun z => f z == ((x0 :: xs).map f).foldr max 0) (x0 :: xs) =
      some (pyArgmax f x0 xs) := by
  intro xs
  induction xs with
  | nil =>
    intro x0
    rw [List.find?_cons]
    have hM : (([x0]).map f).foldr max 0 = f x0 := by
      simp
    rw [hM]
    simp [pyArgmax]
  | cons y ys ih =>
    intro x0
    have hstep : pyArgmax f x0 (y :: ys) = pyArgmax f (if f x0 < f y then y else x0) ys :=
      rfl
    by_cases hlt : f x0 < f y
    · rw [hstep, if_pos hlt]
      have hM : (((x0 :: y :: ys).map f).foldr max 0) =
          max (f x0) (((y :: ys).map f).foldr max 0) := rfl
      have hMy : max (f x0) (((y :: ys).map f).foldr max 0) =
          ((y :: ys).map f).foldr max 0 := by
        have h1 : f x0 ≤ ((y :: ys).map f).foldr max 0 := by
          have h2 : f y ≤ ((y :: ys).map f).foldr max 0 := by
            simp only [List.map_cons, List.foldr_cons]
            omega
          omega
        omega
      rw [List.find?_cons]
      have hne : (f x0 == ((x0 :: y :: ys).map f).foldr max 0) = false := by
        rw [hM, hMy]
        have h2 : f y ≤ ((y :: ys).map f).foldr max 0 := by
          simp only [List.map_cons, List.foldr_cons]
          omega
        simp only [beq_eq_false_iff_ne, ne_eq]
        omega
      rw [hne]
      have := ih y
      rw [show (((x0 :: y :: ys).map f).foldr max 0) = (((y :: ys).map f).foldr max 0)
        from hM.trans hMy]
      exact this
    · rw [hstep, if_neg hlt]
      have hyx : f y ≤ f x0 := by omega
      have hM : (((x0 :: y :: ys).map f).foldr max 0) =
          max (f x0) (max (f y) ((ys.map f).foldr max 0)) := rfl
      have hMx : (((x0 :: ys).map f).foldr max 0) =
          max (f x0) ((ys.map f).foldr max 0) := rfl
      have hMeq : (((x0 :: y :: ys).map f).foldr max 0) =
          (((x0 :: ys).map f).foldr max 0) := by
        rw [hM, hMx]
        omega
      rw [hMeq]
      have hihx := ih x0
      by_cases hx0 : (f x0 == (((x0 :: ys).map f).foldr max 0)) = true
      · rw [List.find?_cons, hx0]
        rw [List.find?_cons, hx0] at hihx
        exact hihx
      · have hx0f : (f x0 == (((x0 :: ys).map f).foldr max 0)) = false :=
          Bool.eq_false_iff.mpr hx0
        have hyf : (f y == (((x0 :: ys).map f).foldr max 0)) = false := by
          rw [hMx]
          simp only [beq_eq_false_iff_ne, ne_eq]
          rw [hMx] at hx0f
          simp only [beq_eq_false_iff_ne, ne_eq] at hx0f
          omega
        rw [List.find?_cons, hx0f, List.find?_cons, hyf]
        rw [List.find?_cons, hx0f] at hihx
        exact hihx

/-- C6: with no filename short-circuit, classify returns the genre whose
pattern list accumulates the maximum total match count over the content, ties
broken by the first genre reaching the maximum in the fixed enumeration order
(API_REFERENCE, TECHNICAL_DOC, SUPPORT_TICKET, POLICY, TUTORIAL, CODE), and
returns UNKNOWN instead whenever that winning score is ≤ 2. -/
theorem c6_classifier_selection (content fname : Str)
    (hfn : filenameRule (lowerStr fname) = none) :
    classify content fname =
      (if 2 < maxGenreScore content then firstMaxGenre content else .UNKNOWN) ∧
    genreScore content (firstMaxGenre content) = maxGenreScore content := by
  have hfind := pyArgmax_first_max (genreScore content)
    [DocumentType.TECHNICAL_DOC, .SUPPORT_TICKET, .POLICY, .TUTORIAL, .CODE]
    DocumentType.API_REFERENCE
  have hgo : genreOrder = DocumentType.API_REFERENCE ::
      [DocumentType.TECHNICAL_DOC, .SUPPORT_TICKET, .POLICY, .TUTORIAL, .CODE] := rfl
  have hmax : maxGenreScore content =
      ((DocumentType.API_REFERENCE ::
        [DocumentType.TECHNICAL_DOC, .SUPPORT_TICKET, .POLICY, .TUTORIAL, .CODE]).map
          (genreScore content)).foldr max 0 := rfl
  have hfirst : firstMaxGenre content =
      pyArgmax (genreScore content) DocumentType.API_REFERENCE
        [DocumentType.TECHNICAL_DOC, .SUPPORT_TICKET, .POLICY, .TUTORIAL, .CODE] := by
    unfold firstMaxGenre
    rw [hgo, hmax, hfind]
    rfl
  have hscore : genreScore content (firstMaxGenre content) = maxGenreScore content := by
    have hf : List.find? (fun z => genreScore content z == maxGenreScore content)
        genreOrder = some (firstMaxGenre content) := by
      rw [hgo, hfirst]
      have h2 := hfind
      rw [← hmax] at h2
      exact h2
    have := List.find?_some hf
    exact eq_of_beq this
  refine ⟨?_, hscore⟩
  have hcl : classify content fname =
      if 2 < genreScore content (firstMaxGenre content) then firstMaxGenre content
      else DocumentType.UNKNOWN := by
    unfold classify
    rw [hfn]
    dsimp only
    rw [← hfirst]
  rw [hcl, hscore]

/-- C6 witness at a concrete input. -/
theorem c6_classifier_selection_witness :
    classify (litS "Some api endpoint description with REST request handling.") [] =
      (if 2 < maxGenreScore
          (litS "Some api endpoint description with REST request handling.")
        then firstMaxGenre
          (litS "Some api endpoint description with REST request handling.")
        else .UNKNOWN) ∧
    genreScore (litS "Some api endpoint description with REST request handling.")
        (firstMaxGenre (litS "Some api endpoint description with REST request handling.")) =
      maxGenreScore (litS "Some api endpoint description with REST request handling.") :=
  c6_classifier_selection
    (litS "Some api endpoint description with REST request handling.") [] (by decide)

theorem hasNonWs_append (a b : Str) :
    hasNonWs (a ++ b) = (hasNonWs a || hasNonWs b) := List.any_append

theorem hasNonWs_dropWhile (l : Str) :
    hasNonWs (l.dropWhile isPyWs) = hasNonWs l := by
  induction l with
  | nil => rfl
  | cons a as ih =>
    rw [List.dropWhile_cons]
    by_cases hp : isPyWs a = true
    · rw [if_pos hp, ih]
      simp [hasNonWs, List.any_cons, hp]
    · rw [if_neg hp]

theorem pyStrip_nil_iff (s : Str) : pyStrip s = [] ↔ hasNonWs s = false := by
  constructor
  · intro h
    unfold pyStrip at h
    rw [List.reverse_eq_nil_iff, List.dropWhile_eq_nil_iff] at h
    have hall : ∀ x ∈ s, isPyWs x = true := by
      intro x hx
      rw [← List.takeWhile_append_dropWhile (p := isPyWs) (l := s)] at hx
      rcases List.mem_append.mp hx with hl | hr
      · exact List.mem_takeWhile_imp hl
      · exact h x (List.mem_reverse.mpr hr)
    rw [show hasNonWs s = s.any (fun c => !isPyWs c) from rfl, List.any_eq_false]
    intro x hx
    rw [hall x hx]
    simp
  · intro h
    have hall : ∀ x ∈ s, isPyWs x = true := by
      rw [show hasNonWs s = s.any (fun c => !isPyWs c) from rfl, List.any_eq_false] at h
      intro x hx
      have := h x hx
      simpa using this
    have hd : s.dropWhile isPyWs = [] := List.dropWhile_eq_nil_iff.mpr hall
    unfold pyStrip
    rw [hd]
    rfl

theorem flatten_hasNonWs : ∀ L : List Str, hasNonWs L.flatten = L.any hasNonWs := by
  intro L
  induction L with
  | nil => rfl
  | cons x L ih => rw [List.flatten_cons, hasNonWs_append, ih, List.any_cons]

theorem sentenceSplitGo_nonws : ∀ (fuel : Nat) (s : Str) (pp : Bool) (acc : Str),
    s.length < fuel → hasNonWs (acc.reverse ++ s) = true →
    ∃ piece ∈ sentenceSplitGo fuel s pp acc, hasNonWs piece = true := by
  intro fuel
  induction fuel with
  | zero => intro s pp acc h; exact absurd h (by simp)
  | succ n ih =>
    intro s pp acc hf hnw
    match s with
    | [] =>
      refine ⟨acc.reverse, by simp [sentenceSplitGo], ?_⟩
      simpa using hnw
    | c :: rest =>
      have hrlen : rest.length < n := by
        simp only [List.length_cons] at hf; omega
      simp only [sentenceSplitGo]
      by_cases hcond : (pp && isPyWs c) = true
      · rw [if_pos hcond]
        have hc : isPyWs c = true := (Bool.and_eq_true _ _ |>.mp hcond).2
        rw [hasNonWs_append] at hnw
        rcases Bool.or_eq_true_iff.mp hnw with hacc | hs
        · exact ⟨acc.reverse, List.mem_cons_self _ _, hacc⟩
        · have hrest : hasNonWs (rest.dropWhile isPyWs) = true := by
            rw [hasNonWs_dropWhile]
            simpa [hasNonWs, List.any_cons, hc] using hs
          have hlen2 : (rest.dropWhile isPyWs).length < n :=
            lt_of_le_of_lt (List.dropWhile_suffix isPyWs).length_le hrlen
          obtain ⟨piece, hp1, hp2⟩ := ih (rest.dropWhile isPyWs) false []
            hlen2 (by simpa using hrest)
          exact ⟨piece, List.mem_cons_of_mem _ hp1, hp2⟩
      · rw [if_neg hcond]
        apply ih rest (isPunct c) (c :: acc) hrlen
        rw [List.reverse_cons, List.append_assoc, List.singleton_append]
        exact hnw

theorem packGo_nonws (tok : Str → Nat) (mx : Nat) :
    ∀ (sents : List Str) (cur : Str) (chunks : List Str),
      ((∃ sn ∈ sents, hasNonWs sn = true) ∨ hasNonWs cur = true ∨
        (∃ ch ∈ chunks, hasNonWs ch = true)) →
      ∃ ch ∈ packGo tok mx sents cur chunks, hasNonWs ch = true := by
  intro sents
  induction sents with
  | nil =>
    intro cur chunks hd
    rw [packGo]
    rcases hd with ⟨sn, hsn, -⟩ | hcur | ⟨ch, hch, hnw⟩
    · exact absurd hsn (List.not_mem_nil sn)
    · have hne : cur.isEmpty = false := by
        rw [List.isEmpty_eq_false]
        intro h0
        rw [h0] at hcur
        exact absurd hcur (by simp [hasNonWs])
      rw [hne]
      simp only [Bool.false_eq_true, if_false]
      exact ⟨cur, List.mem_append_right _ (List.mem_singleton_self cur), hcur⟩
    · split
      · exact ⟨ch, hch, hnw⟩
      · exact ⟨ch, List.mem_append_left _ hch, hnw⟩
  | cons sn rest ih =>
    intro cur chunks hd
    simp only [packGo]
    by_cases hce : cur.isEmpty = true
    · have hcur0 : cur = [] := List.isEmpty_iff.mp hce
      simp only [hce, if_true]
      have hd2 : (∃ x ∈ rest, hasNonWs x = true) ∨ hasNonWs sn = true ∨
          (∃ ch ∈ chunks, hasNonWs ch = true) := by
        rcases hd with ⟨x, hx, hxnw⟩ | hcur | hc
        · rcases List.mem_cons.mp hx with rfl | hx2
          · exact Or.inr (Or.inl hxnw)
          · exact Or.inl ⟨x, hx2, hxnw⟩
        · rw [hcur0] at hcur
          exact absurd hcur (by simp [hasNonWs])
        · exact Or.inr (Or.inr hc)
      split
      · exact ih sn chunks hd2
      · exact ih sn chunks hd2
    · simp only [hce, Bool.false_eq_true, if_false]
      split
      · -- accepted: buffer grows to cur ++ ' ' :: sn
        apply ih (cur ++ ' ' :: sn) chunks
        rcases hd with ⟨x, hx, hxnw⟩ | hcur | hc
        · rcases List.mem_cons.mp hx with rfl | hx2
          · refine Or.inr (Or.inl ?_)
            rw [hasNonWs_append]
            simp only [hasNonWs, List.any_cons] at hxnw ⊢
            rw [hxnw]
            simp
          · exact Or.inl ⟨x, hx2, hxnw⟩
        · refine Or.inr (Or.inl ?_)
          rw [hasNonWs_append, hcur]
          simp
        · exact Or.inr (Or.inr hc)
      · -- rejected: cur flushed, buffer restarts at sn
        apply ih sn (chunks ++ [cur])
        rcases hd with ⟨x, hx, hxnw⟩ | hcur | ⟨ch, hch, hnw⟩
        · rcases List.mem_cons.mp hx with rfl | hx2
          · exact Or.inr (Or.inl hxnw)
          · exact Or.inl ⟨x, hx2, hxnw⟩
        · exact Or.inr (Or.inr ⟨cur,
            List.mem_append_right _ (List.mem_singleton_self cur), hcur⟩)
        · exact Or.inr (Or.inr ⟨ch, List.mem_append_left _ hch, hnw⟩)

theorem semanticChunk_nonempty (tok : Str → Nat) (mx : Nat) (c : Str)
    (hnw : hasNonWs c = true) : semanticChunk tok mx c ≠ [] := by
  have hflat : hasNonWs ((splitBySections c).flatten) = true := by
    unfold splitBySections
    rw [recombinePairs_flatten, sectionPieces_flatten]
    exact hnw
  rw [flatten_hasNonWs, List.any_eq_true] at hflat
  obtain ⟨sec, hsec, hsnw⟩ := hflat
  have hraw : ∃ raw0 ∈ ((splitBySections c).map fun sec =>
      if tok sec ≤ mx then [sec] else splitBySentences tok mx sec).flatten,
      hasNonWs raw0 = true := by
    by_cases hfit : tok sec ≤ mx
    · refine ⟨sec, List.mem_flatten.mpr ⟨[sec], ?_, List.mem_singleton_self sec⟩, hsnw⟩
      rw [List.mem_map]
      exact ⟨sec, hsec, by rw [if_pos hfit]⟩
    · obtain ⟨piece, hp1, hp2⟩ := sentenceSplitGo_nonws (sec.length + 1) sec false []
        (by omega) (by simpa using hsnw)
      obtain ⟨ch0, hc1, hc2⟩ := packGo_nonws tok mx (splitSentences sec) [] []
        (Or.inl ⟨piece, hp1, hp2⟩)
      refine ⟨ch0, List.mem_flatten.mpr ⟨splitBySentences tok mx sec, ?_, hc1⟩, hc2⟩
      rw [List.mem_map]
      exact ⟨sec, hsec, by rw [if_neg hfit]⟩
  obtain ⟨raw0, hr, hrnw⟩ := hraw
  intro hnil
  have hmem : pyStrip raw0 ∈ semanticChunk tok mx c := by
    unfold semanticChunk
    rw [List.mem_filter]
    refine ⟨List.mem_map.mpr ⟨raw0, hr, rfl⟩, ?_⟩
    have : pyStrip raw0 ≠ [] := by
      intro h0
      rw [pyStrip_nil_iff raw0] at h0
      rw [h0] at hrnw
      exact absurd hrnw (by simp)
    simpa [List.isEmpty_eq_false] using this
  rw [hnil] at hmem
  exact absurd hmem (List.not_mem_nil _)

theorem splitCh_ne_nil (sep : Char) : ∀ l : Str, splitCh sep l ≠ [] := by
  intro l
  cases l with
  | nil => simp [splitCh]
  | cons c r =>
    rw [splitCh]
    by_cases h : (c == sep) = true
    · rw [if_pos h]; simp
    · rw [if_neg h]
      cases hs : splitCh sep r with
      | nil => simp
      | cons p ps => simp

theorem splitCh_nonws : ∀ l : Str, hasNonWs l = true →
    ∃ x ∈ splitCh '\n' l, hasNonWs x = true := by
  intro l
  induction l with
  | nil => intro h; exact absurd h (by simp [hasNonWs])
  | cons c r ih =>
    intro h
    rw [splitCh]
    by_cases hc : (c == '\n') = true
    · rw [if_pos hc]
      have hcw : isPyWs c = true := by
        have hceq : c = '\n' := by simpa using hc
        rw [hceq]; rfl
      have hr : hasNonWs r = true := by
        simpa [hasNonWs, List.any_cons, hcw] using h
      obtain ⟨x, hx1, hx2⟩ := ih hr
      exact ⟨x, List.mem_cons_of_mem _ hx1, hx2⟩
    · rw [if_neg hc]
      cases hs : splitCh '\n' r with
      | nil => exact absurd hs (splitCh_ne_nil '\n' r)
      | cons p ps =>
        have hco : (!isPyWs c || hasNonWs r) = true := by
          simpa [hasNonWs, List.any_cons] using h
        rcases Bool.or_eq_true_iff.mp hco with hcn | hr
        · refine ⟨c :: p, List.mem_cons_self _ _, ?_⟩
          simp [hasNonWs, List.any_cons, hcn]
        · obtain ⟨x, hx1, hx2⟩ := ih hr
          rw [hs] at hx1
          rcases List.mem_cons.mp hx1 with rfl | hx3
          · refine ⟨c :: x, List.mem_cons_self _ _, ?_⟩
            have : hasNonWs (c :: x) = (!isPyWs c || hasNonWs x) := by
              simp [hasNonWs, List.any_cons]
            rw [this, hx2]
            simp
          · exact ⟨x, List.mem_cons_of_mem _ hx3, hx2⟩

theorem pushPlainLine_ne_nil (st : List DocSection) (l : Str) :
    pushPlainLine st l ≠ [] := by
  unfold pushPlainLine
  cases hlast : st.getLast? with
  | none => simp
  | some sec =>
    dsimp only
    by_cases hl : (sec.level == 0) = true
    · rw [if_pos hl]; simp
    · rw [if_neg hl]; simp

theorem parseGo_ne_nil : ∀ (lines : List Str) (cur : Option DocSection)
    (st : List DocSection),
    (st ≠ [] ∨ cur ≠ none ∨ ∃ l ∈ lines, hasNonWs l = true) →
    parseGo lines cur st ≠ [] := by
  intro lines
  induction lines with
  | nil =>
    intro cur st hd
    rw [parseGo]
    rcases hd with hst | hcur | ⟨l, hl, -⟩
    · intro h; exact hst (List.append_eq_nil.mp h).1
    · cases cur with
      | none => exact absurd rfl hcur
      | some sec => simp [Option.toList]
    · exact absurd hl (List.not_mem_nil l)
  | cons l rest ih =>
    intro cur st hd
    simp only [parseGo]
    by_cases hemp : (pyStrip l).isEmpty = true
    · rw [if_pos hemp]
      apply ih
      rcases hd with hst | hcur | ⟨x, hx, hxnw⟩
      · exact Or.inl hst
      · exact Or.inr (Or.inl hcur)
      · rcases List.mem_cons.mp hx with rfl | hx2
        · exfalso
          rw [List.isEmpty_iff, pyStrip_nil_iff] at hemp
          rw [hemp] at hxnw
          exact absurd hxnw (by simp)
        · exact Or.inr (Or.inr ⟨x, hx2, hxnw⟩)
    · rw [if_neg hemp]
      cases hh : headerMatch (pyStrip l) with
      | some lt => exact ih _ _ (Or.inr (Or.inl (by simp)))
      | none =>
        cases cur with
        | some sec => exact ih _ _ (Or.inr (Or.inl (by simp)))
        | none => exact ih _ _ (Or.inl (pushPlainLine_ne_nil st (pyStrip l)))

theorem splitSeqGo_ne_nil (sep : Str) : ∀ (fuel : Nat) (s acc : Str),
    splitSeqGo sep fuel s acc ≠ [] := by
  intro fuel
  induction fuel with
  | zero => intro s acc; simp [splitSeqGo]
  | succ n ih =>
    intro s acc
    cases s with
    | nil => simp [splitSeqGo]
    | cons c rest =>
      simp only [splitSeqGo]
      split
      · simp
      · exact ih rest (c :: acc)

theorem chunkSecGo_ne_nil (tok : Str → Nat) (mx : Nat) (hdr : Str) :
    ∀ (parts : List Str) (cur : Str) (chunks : List Str),
      hdr.length ≤ cur.length →
      (parts ≠ [] ∨ cur ≠ hdr ∨ chunks ≠ []) →
      chunkSecGo tok mx hdr parts cur chunks ≠ [] := by
  intro parts
  induction parts with
  | nil =>
    intro cur chunks hlen hd
    rw [chunkSecGo]
    by_cases hch : (cur == hdr) = true
    · rw [if_pos hch]
      rcases hd with h1 | h2 | h3
      · exact absurd rfl h1
      · exact absurd (by simpa using hch) h2
      · exact h3
    · rw [if_neg hch]
      simp
  | cons p rest ih =>
    intro cur chunks hlen hd
    have hlen2 : nlnl.length = 2 := rfl
    simp only [chunkSecGo]
    split
    · apply ih
      · simp only [List.length_append]
        omega
      · refine Or.inr (Or.inl ?_)
        intro heq
        have hle := congrArg List.length heq
        simp only [List.length_append] at hle
        omega
    · split
      · apply ih
        · simp only [List.length_append]
          omega
        · refine Or.inr (Or.inl ?_)
          intro heq
          have hle := congrArg List.length heq
          simp only [List.length_append] at hle
          omega
      · apply ih
        · simp only [List.length_append]
          omega
        · refine Or.inr (Or.inl ?_)
          intro heq
          have hle := congrArg List.length heq
          simp only [List.length_append] at hle
          omega

theorem chunkSection_ne_nil (tok : Str → Nat) (mx : Nat) (sec : DocSection) :
    chunkSection tok mx sec ≠ [] := by
  unfold chunkSection
  split
  · simp
  · exact chunkSecGo_ne_nil tok mx _ _ _ _ (Nat.le_refl _)
      (Or.inl (splitSeqGo_ne_nil nlnl _ _ _))

theorem hierChunk_nonempty (tok : Str → Nat) (mx : Nat) (c : Str)
    (hnw : hasNonWs c = true) : hierChunk tok mx c ≠ [] := by
  have hst : parseStructure c ≠ [] := by
    unfold parseStructure
    exact parseGo_ne_nil _ _ _ (Or.inr (Or.inr (splitCh_nonws c hnw)))
  unfold hierChunk
  apply List.flatten_ne_nil_iff.mpr
  cases hps : parseStructure c with
  | nil => exact absurd hps hst
  | cons s0 srest =>
    refine ⟨chunkSection tok mx s0, ?_, chunkSection_ne_nil tok mx s0⟩
    rw [List.map_cons]
    exact List.mem_cons_self _ _

/-- C7 (amended): for every document with at least one non-whitespace
character, process_document yields at least one chunk whenever the selected
strategy is semantic, fixed-size or hierarchical; under the code-aware
strategy the result can collapse to zero chunks (see the counterexample). -/
theorem c7_nonempty_output (md5hex : Str → Str) (tok : Str → Nat)
    (content fname : Str) (docId : Option Str)
    (hnw : hasNonWs content = true)
    (hstrat : strategyMap (classify content fname) ≠ ChunkingStrategy.CODE_AWARE) :
    1 ≤ (processDocument md5hex tok content fname docId).total_chunks := by
  have htot : (processDocument md5hex tok content fname docId).total_chunks =
      (runStrategy tok (strategyMap (classify content fname)) content).length := rfl
  rw [htot]
  have hne : runStrategy tok (strategyMap (classify content fname)) content ≠ [] := by
    cases hs : strategyMap (classify content fname) with
    | SEMANTIC => exact semanticChunk_nonempty tok 512 content hnw
    | CODE_AWARE => exact absurd hs hstrat
    | HIERARCHICAL => exact hierChunk_nonempty tok 512 content hnw
    | FIXED_SIZE => exact semanticChunk_nonempty tok 256 content hnw
  exact List.length_pos.mpr hne

/-- C7 witness at a concrete input. -/
theorem c7_nonempty_output_witness :
    1 ≤ (processDocument (fun _ => litS "0123456789abcdef") (fun _ => 0)
        (litS "hello") [] none).total_chunks :=
  c7_nonempty_output (fun _ => litS "0123456789abcdef") (fun _ => 0)
    (litS "hello") [] none (by decide) (by decide)

/-- C7 (counterexample): the content consists of one oversized fenced code
block whose interior is only blank lines; with a `.py` filename the
code-aware strategy is selected and process_document returns ZERO chunks even
though the content has non-whitespace characters (the backticks). -/
theorem c7_counterexample :
    hasNonWs (litS "```\n\n\n\n```") = true ∧
    (processDocument (fun _ => litS "0123456789abcdef") (fun s => 120 * s.length)
        (litS "```\n\n\n\n```") (litS "a.py") none).total_chunks = 0 := by decide

end Chunking
